import Mathlib

/-!
Shallow embedding of `src/intl/src/intl-manager.ts` from the discord-intl
repository.

The file has two halves:

1. The `IntlManager` class: a locale-reactive formatting engine holding the
   current locale, an `IntlShape` of derived formatter configuration, a fixed
   map of default rich-text elements, and a set of locale-change subscribers.
   Its formatting methods (`formatToParts`, `formatToPlainString`, `string`,
   `formatToMarkdownString`) duck-type the incoming message value
   (string, getter function, or directly passed compiled-template object).

2. The watcher half (`processFile`, `compileIntlMessageFiles`): a per-file
   compile dispatcher that derives a compiled-artifact output path from a
   definition-file path and invokes an external compiler database, catching
   every per-file failure.

Modelling conventions:
- JavaScript strings are `String`; file paths are `List Char` so that the
  character-level index arithmetic of `lastIndexOf` and `substring` is
  explicit.
- Opaque rendered rich content is a type parameter `V`; JavaScript objects
  used as maps are functions `String → Option V` (a key absent from the
  object looks up to `none`, mirroring `undefined`).
- Exceptions are `Except`: a function that can throw returns `Except E A`,
  and a JavaScript `try`/`catch` is a `match` on that value.
- Subscriber callbacks are identified by `Nat` identities; their behavior is
  an explicit parameter `beh : Nat → String → Except E Unit` so that a
  callback that throws is representable. The notification loop returns the
  ordered list of performed invocations together with the propagated
  exception, if any.
-/

namespace IntlManagerModel

/-- Model of the object produced by `createIntl` from `@formatjs/intl`: the
manager only ever reads its `formatters`/`formats` handles, which are fully
determined by the locales it was constructed from, so the shape is modelled
by those locales alone. -/
structure IntlShape where
  defaultLocale : String
  locale : String
  deriving DecidableEq, Repr

/-- Model of `createIntl({ defaultLocale, locale })` (the `formats` config
passed in the constructor is a fixed external constant and is dropped). -/
def createIntl (defaultLocale locale : String) : IntlShape :=
  { defaultLocale := defaultLocale, locale := locale }

/-- Fallback locale used for all internationalization, `DEFAULT_LOCALE` in
the source. -/
def DEFAULT_LOCALE : String := "en-US"

/-- A JavaScript object used as a map from placeholder name to a value
(`RichTextElementMap` / format values in the source): lookup of an absent
key yields `none` (`undefined`). -/
def ValueBindings (V : Type) : Type := String → Option V

/-- One entry of the part sequence produced by a compiled template
(`intl-messageformat` parts): `part.type === FormatPartType.literal` holds
exactly for the `literal` constructor; every other part carries an opaque
rendered value. -/
inductive FormatPart (V : Type) where
  | literal (value : String)
  | rich (value : V)
  deriving DecidableEq, Repr

/-- The `part.type === FormatPartType.literal` test. -/
def FormatPart.isLiteral {V : Type} : FormatPart V → Bool
  | .literal _ => true
  | .rich _ => false

/-- The `part.value` read in the merging branch, where the part is known to
be a literal (the `rich` case is never read there). -/
def FormatPart.literalText {V : Type} : FormatPart V → String
  | .literal s => s
  | .rich _ => ""

/-- The `part.value` pushed onto the result array: a plain string for a
literal part, the opaque rendered value otherwise. The tag records which
kind of part the entry originated from. -/
def FormatPart.entry {V : Type} : FormatPart V → Sum String V
  | .literal s => Sum.inl s
  | .rich v => Sum.inr v

/-- A compiled message template (owned by the external compiler/loader),
exposing the two capabilities used by the manager. In the source each method
receives `(this.intl.formatters, this.intl.formats, values)`; both handles
are determined by the manager `intl` shape, which is passed here in their
place. -/
structure CompiledTemplate (V : Type) where
  formatToParts : IntlShape → ValueBindings V → List (FormatPart V)
  formatToPlainString : IntlShape → Option (ValueBindings V) → String

/-- The value obtained after the getter resolution step: either a plain
string or a compiled template. -/
inductive ResolvedMessage (V : Type) where
  | str (s : String)
  | template (t : CompiledTemplate V)

/-- A runtime message value as duck-typed by the manager methods:
`typeof message === 'string'`, `typeof message === 'function'`, or any
other object (a directly passed compiled template). -/
inductive IntlMessage (V : Type) where
  | str (s : String)
  | getter (f : String → ResolvedMessage V)
  | compiled (t : CompiledTemplate V)

/-- The `IntlManager` instance state. Subscriptions are a `Set` of callback
identities in insertion order, modelled as a duplicate-free list of `Nat`
identities. -/
structure IntlManager (V : Type) where
  defaultLocale : String
  currentLocale : String
  intl : IntlShape
  defaultRichTextElements : ValueBindings V
  localeSubscriptions : List Nat

/-- The `IntlManager` constructor: both locales start at `defaultLocale`,
the intl shape is created from it, and the subscription set starts empty. -/
def mkIntlManager {V : Type} (defaultLocale : String)
    (defaultRichTextElements : ValueBindings V) : IntlManager V :=
  { defaultLocale := defaultLocale
    currentLocale := defaultLocale
    intl := createIntl defaultLocale defaultLocale
    defaultRichTextElements := defaultRichTextElements
    localeSubscriptions := [] }

/-- The loop body of `emitLocaleChange`: iterate the subscription set in
insertion order, calling each callback with the new locale. A callback that
throws aborts the loop (there is no `try`/`catch` in the source), so the
result is the ordered list of performed invocations paired with the
propagated exception, if any. -/
def emitLocaleChange {E : Type} (beh : Nat → String → Except E Unit) :
    List Nat → String → List (Nat × String) × Option E
  | [], _ => ([], none)
  | c :: rest, locale =>
    match beh c locale with
    | Except.ok _ =>
      let r := emitLocaleChange beh rest locale
      ((c, locale) :: r.1, r.2)
    | Except.error e => ([(c, locale)], some e)

/-- Model of `setLocale`: store the new locale, rebuild the intl shape from
`(defaultLocale, locale)`, then run `emitLocaleChange`. Returns the updated
manager together with the notification outcome. -/
def setLocale {V E : Type} (beh : Nat → String → Except E Unit)
    (m : IntlManager V) (locale : String) :
    IntlManager V × (List (Nat × String) × Option E) :=
  ({ m with
      currentLocale := locale
      intl := createIntl m.defaultLocale locale },
    emitLocaleChange beh m.localeSubscriptions locale)

/-- Model of `onLocaleChange`: `Set.add` keeps insertion order and ignores a
callback identity that is already present. -/
def onLocaleChange {V : Type} (m : IntlManager V) (callback : Nat) :
    IntlManager V :=
  if callback ∈ m.localeSubscriptions then m
  else { m with localeSubscriptions := m.localeSubscriptions ++ [callback] }

/-- Model of the disposer returned by `onLocaleChange`:
`Set.delete` removes the callback identity. -/
def disposeLocaleSubscription {V : Type} (m : IntlManager V) (callback : Nat) :
    IntlManager V :=
  { m with localeSubscriptions := m.localeSubscriptions.filter (· ≠ callback) }

/-- The resolution step of `formatToParts`:
`typeof message === 'function' ? message(this.currentLocale) : message`.
This line runs after the string fast path, so the `str` case is already
excluded there; a non-function, non-string message is used as the resolved
message directly. -/
def resolveMessage {V : Type} (m : IntlManager V) :
    IntlMessage V → ResolvedMessage V
  | .str s => ResolvedMessage.str s
  | .getter f => f m.currentLocale
  | .compiled t => ResolvedMessage.template t

/-- The effective bindings computed by `formatToParts`:
`values != null ? { ...this.defaultRichTextElements, ...values } :
this.defaultRichTextElements`. Object spread lets the later object win per
key, so a key present in `values` overrides the default and every other key
keeps its default. -/
def resolvedValuesFor {V : Type} (defaults : ValueBindings V)
    (values : Option (ValueBindings V)) : ValueBindings V :=
  match values with
  | some vs => fun key => (vs key).orElse fun _ => defaults key
  | none => defaults

/-- The write `result[result.length - 1] += part.value` of the merging
branch: concatenate onto the last entry of the result array. On an empty
array the JavaScript write targets index `-1`, a stray property that leaves
the array contents unchanged. The `Sum.inr` case of the last entry is
likewise represented unreached: the loop merges only while the last pushed
entry is a literal. -/
def appendLiteral {V : Type} : Sum String V → String → Sum String V
  | Sum.inl t, s => Sum.inl (t ++ s)
  | Sum.inr v, _ => Sum.inr v

/-- Helper applying `appendLiteral` to the final entry of the array. -/
def concatLast {V : Type} : List (Sum String V) → String → List (Sum String V)
  | [], _ => []
  | [e], s => [appendLiteral e s]
  | e :: e' :: rest, s => e :: concatLast (e' :: rest) s

/-- The coalescing loop of `formatToParts` (result array and `inLiteral`
flag): while the previous part was a literal and the next part is also a
literal, concatenate its text onto the last emitted entry; otherwise push
the part value and record whether this part is itself a literal. -/
def coalesceGo {V : Type} :
    List (FormatPart V) → List (Sum String V) → Bool → List (Sum String V)
  | [], result, _ => result
  | part :: rest, result, inLiteral =>
    if inLiteral && part.isLiteral then
      coalesceGo rest (concatLast result part.literalText) true
    else
      coalesceGo rest (result ++ [part.entry]) part.isLiteral

/-- The coalescing step of `formatToParts`: the loop starts with an empty
result array and `inLiteral = false`. -/
def coalesceParts {V : Type} (parts : List (FormatPart V)) :
    List (Sum String V) :=
  coalesceGo parts [] false

/-- Model of `IntlManager.formatToParts`: string fast path, getter
resolution, resolved-string fast path, effective-binding computation,
template part production, and literal coalescing. -/
def formatToParts {V : Type} (m : IntlManager V) (message : IntlMessage V)
    (values : Option (ValueBindings V)) : List (Sum String V) :=
  match message with
  | .str s => [Sum.inl s]
  | message =>
    match resolveMessage m message with
    | .str s => [Sum.inl s]
    | .template t =>
      coalesceParts
        (t.formatToParts m.intl
          (resolvedValuesFor m.defaultRichTextElements values))

/-- The runtime error raised by calling a value that is not a function, as
in `message(this.currentLocale)` on a non-function message. -/
inductive JsError where
  | typeError
  deriving DecidableEq, Repr

/-- Model of `IntlManager.formatToPlainString`: string fast path, then the
unconditional call `message(this.currentLocale)` (a `TypeError` when the
message is a directly passed template object rather than a function),
resolved-string fast path, and the plain-text production of the template
with the raw caller values (default rich elements are not passed). -/
def formatToPlainString {V : Type} (m : IntlManager V)
    (message : IntlMessage V) (values : Option (ValueBindings V)) :
    Except JsError String :=
  match message with
  | .str s => Except.ok s
  | .getter f =>
    match f m.currentLocale with
    | .str s => Except.ok s
    | .template t => Except.ok (t.formatToPlainString m.intl values)
  | .compiled _ => Except.error JsError.typeError

/-- Model of `IntlManager.string`: delegates to `formatToPlainString` with
no values argument. -/
def string {V : Type} (m : IntlManager V) (message : IntlMessage V) :
    Except JsError String :=
  formatToPlainString m message none

/-- Model of `IntlManager.formatToMarkdownString`: the markdown conversion
is not implemented; the body is the same as `formatToPlainString`
(string fast path, unconditional getter call, plain-text production). -/
def formatToMarkdownString {V : Type} (m : IntlManager V)
    (message : IntlMessage V) (values : Option (ValueBindings V)) :
    Except JsError String :=
  match message with
  | .str s => Except.ok s
  | .getter f =>
    match f m.currentLocale with
    | .str s => Except.ok s
    | .template t => Except.ok (t.formatToPlainString m.intl values)
  | .compiled _ => Except.error JsError.typeError

/-- Flatten an input part sequence to its atomic content: literal parts
contribute their characters in order, every other part contributes its
opaque value as a single atom. -/
def flattenParts {V : Type} : List (FormatPart V) → List (Sum Char V)
  | [] => []
  | .literal s :: rest => s.data.map Sum.inl ++ flattenParts rest
  | .rich v :: rest => Sum.inr v :: flattenParts rest

/-- Flatten a coalesced output sequence to the same atomic content. -/
def flattenEntries {V : Type} : List (Sum String V) → List (Sum Char V)
  | [] => []
  | Sum.inl s :: rest => s.data.map Sum.inl ++ flattenEntries rest
  | Sum.inr v :: rest => Sum.inr v :: flattenEntries rest

/-- Adjacency predicate for the coalesced output: the two neighboring
entries must not both originate from literal parts. -/
def notBothLiteral {V : Type} (a b : Sum String V) : Prop :=
  ¬(a.isLeft = true ∧ b.isLeft = true)

/-- Loop invariant relating the result array to the `inLiteral` flag: the
flag is set exactly when the array is nonempty and its last entry is a
literal. -/
def lastMatches {V : Type} (res : List (Sum String V)) (b : Bool) : Prop :=
  match res.getLast? with
  | none => b = false
  | some e => b = e.isLeft

/-! Watcher half: path computation and the per-file compile dispatcher of
`processFile` / `compileIntlMessageFiles`. Paths are `List Char`. -/

/-- The definition suffix `.messages.js`. -/
def defSuffixChars : List Char := ".messages.js".data

/-- The compiled-artifact suffix `.compiled.messages.jsona`. -/
def compiledSuffixChars : List Char := ".compiled.messages.jsona".data

/-- Search for the last occurrence of `pat` in `s` starting at position `n`
and scanning downward, as `String.prototype.lastIndexOf` does. -/
def lastIndexOfFrom (s pat : List Char) : Nat → Option Nat
  | 0 => if pat.isPrefixOf s then some 0 else none
  | n + 1 =>
    if pat.isPrefixOf (s.drop (n + 1)) then some (n + 1)
    else lastIndexOfFrom s pat n

/-- Model of `filePath.lastIndexOf(pat)`: the greatest index at which `pat`
occurs in `s`, or `none` when it does not occur (`-1` in JavaScript). -/
def lastIndexOf (s pat : List Char) : Option Nat :=
  lastIndexOfFrom s pat s.length

/-- Model of
`filePath.substring(0, filePath.lastIndexOf('.messages.js'))`: everything
before the last occurrence of the definition suffix, or the empty string
when the suffix does not occur (`substring(0, -1)` clamps to `0`). Note the
result keeps the whole directory prefix of the path, not only the base
name. -/
def fileBasename (filePath : List Char) : List Char :=
  match lastIndexOf filePath defSuffixChars with
  | some i => filePath.take i
  | none => []

/-- A POSIX-absolute path starts with a slash. -/
def isAbsolute : List Char → Bool
  | [] => false
  | c :: _ => c == '/'

/-- Model of Node `path.dirname` for paths without trailing slashes:
everything before the last slash, `/` for a root-level entry, and `.` when
the path has no slash at all. -/
def dirname (p : List Char) : List Char :=
  match lastIndexOf p ['/'] with
  | none => ['.']
  | some 0 => ['/']
  | some i => p.take i

/-- Modelled from the spec and the documented Node semantics of
`path.resolve(base, p)` with working directory `cwd` (the source calls the
external `node:path` library): the rightmost absolute path wins, and
relative segments are prepended until one is absolute, falling back to the
working directory. Normalization is omitted; it is the identity on inputs
without `.` or `..` segments or repeated slashes. -/
def resolvePaths (cwd base p : List Char) : List Char :=
  if isAbsolute p then p
  else if isAbsolute base then base ++ '/' :: p
  else cwd ++ '/' :: (base ++ '/' :: p)

/-- The output-path computation of `processFile`:
`path.resolve(path.dirname(filePath), fileBasename + '.compiled.messages.jsona')`,
with `cwd` the working directory of the process. -/
def processFileOutputPath (cwd filePath : List Char) : List Char :=
  resolvePaths cwd (dirname filePath) (fileBasename filePath ++ compiledSuffixChars)

/-- The serialization format argument `IntlCompiledMessageFormat.Json`. -/
inductive IntlCompiledMessageFormat where
  | json
  deriving DecidableEq, Repr

/-- The external compiler database collaborator
(`@discord/intl-message-database`): both operations can fail with a
compiler error `E` (parse error, I/O error, internal error). -/
structure IntlMessageDatabase (E : Type) where
  processDefinitionsFile : List Char → Except E Unit
  precompile :
    List Char → String → List Char → IntlCompiledMessageFormat → Except E Unit

/-- What `processFile` did for one candidate path: skipped a
non-definitions file, compiled to the given output path, or caught a
failure and logged it. -/
inductive ProcessOutcome (E : Type) where
  | skipped
  | compiled (outputPath : List Char)
  | failedLogged (e : E)
  deriving DecidableEq, Repr

/-- The `try` block of `processFile`: derive the output path, register the
definitions in the database, then precompile for `en-US` in JSON format.
Either database call may throw. -/
def processFileTry {E : Type} (cwd : List Char)
    (database : IntlMessageDatabase E) (filePath : List Char) :
    Except E (List Char) := do
  let outputPath := processFileOutputPath cwd filePath
  database.processDefinitionsFile filePath
  database.precompile filePath "en-US" outputPath IntlCompiledMessageFormat.json
  return outputPath

/-- Model of `processFile`: re-validate the candidate path with
`isMessageDefinitionsFile`, run the `try` block, and catch any failure it
raises (the `catch` logs and swallows the error). The outer `Except` is the
exception channel visible to the caller of `processFile`. -/
def processFile {E : Type} (cwd : List Char)
    (isMessageDefinitionsFile : List Char → Bool)
    (database : IntlMessageDatabase E) (filePath : List Char) :
    Except E (ProcessOutcome E) :=
  if isMessageDefinitionsFile filePath = false then
    Except.ok ProcessOutcome.skipped
  else
    match processFileTry cwd database filePath with
    | Except.ok out => Except.ok (ProcessOutcome.compiled out)
    | Except.error e => Except.ok (ProcessOutcome.failedLogged e)

/-- The initial scan loop of `compileIntlMessageFiles`: call `processFile`
on every discovered candidate path in order; an exception escaping
`processFile` would abort the loop and propagate. -/
def initialScan {E : Type} (cwd : List Char)
    (isMessageDefinitionsFile : List Char → Bool)
    (database : IntlMessageDatabase E) (files : List (List Char)) :
    Except E (List (ProcessOutcome E)) :=
  files.mapM (processFile cwd isMessageDefinitionsFile database)

/-! Concrete fixtures used by witnesses and counterexamples. -/

/-- A subscriber behavior where callback `0` throws and every other
callback returns normally. -/
def behThrow0 : Nat → String → Except Unit Unit :=
  fun c _ => if c == 0 then Except.error () else Except.ok ()

/-- A subscriber behavior where every callback returns normally. -/
def behOkAll : Nat → String → Except Unit Unit :=
  fun _ _ => Except.ok ()

/-- A manager with two registered subscribers, identities `0` and `1` in
registration order. -/
def managerWithTwoSubs : IntlManager Nat :=
  { defaultLocale := "en-US"
    currentLocale := "en-US"
    intl := createIntl "en-US" "en-US"
    defaultRichTextElements := fun _ => none
    localeSubscriptions := [0, 1] }

/-- Default rich elements binding key `b` to the opaque value `1`. -/
def defaultsB : ValueBindings Nat :=
  fun k => if k == "b" then some 1 else none

/-- Caller bindings binding key `i` to the opaque value `2`. -/
def bindingsI : ValueBindings Nat :=
  fun k => if k == "i" then some 2 else none

/-! Theorems. -/

/-- C8: for every message and every bindings map, `formatToMarkdownString`
returns exactly the same result as `formatToPlainString` on the same
inputs: the bodies agree on the string fast path, the getter resolution,
and the plain-string template production, and both raise the same
`TypeError` on a non-function, non-string message. -/
theorem formatToMarkdownString_eq_formatToPlainString {V : Type}
    (m : IntlManager V) (message : IntlMessage V)
    (values : Option (ValueBindings V)) :
    formatToMarkdownString m message values =
      formatToPlainString m message values := by
  cases message with
  | str s => rfl
  | getter f =>
    cases hf : f m.currentLocale <;>
      simp [formatToMarkdownString, formatToPlainString, hf]
  | compiled t => rfl

/-- C9: for every message that is a string literal `s`, `formatToParts`
returns the one-element sequence holding `s`, `formatToPlainString` returns
`s`, and `string` returns `s`; each method takes its string fast path and
skips all further processing. -/
theorem literal_fast_path {V : Type} (m : IntlManager V) (s : String)
    (values : Option (ValueBindings V)) :
    formatToParts m (IntlMessage.str s) values = [Sum.inl s] ∧
    formatToPlainString m (IntlMessage.str s) values = Except.ok s ∧
    string m (IntlMessage.str s) = Except.ok s :=
  ⟨rfl, rfl, rfl⟩

/-- C10: a message that is neither a string nor a function (a directly
passed compiled template) is handled only by `formatToParts`, whose
non-function branch uses it as the resolved message; `formatToPlainString`
and `formatToMarkdownString` invoke the message unconditionally as a
resolver function and therefore raise a `TypeError` on it. -/
theorem direct_template_only_formatToParts {V : Type} (m : IntlManager V)
    (t : CompiledTemplate V) (values : Option (ValueBindings V)) :
    formatToParts m (IntlMessage.compiled t) values =
      coalesceParts
        (t.formatToParts m.intl
          (resolvedValuesFor m.defaultRichTextElements values)) ∧
    formatToPlainString m (IntlMessage.compiled t) values =
      Except.error JsError.typeError ∧
    formatToMarkdownString m (IntlMessage.compiled t) values =
      Except.error JsError.typeError :=
  ⟨rfl, rfl, rfl⟩

/-- C3: the effective bindings computed by `formatToParts` are the default
rich elements overridden key-by-key by the caller bindings: for a key the
caller binds, the caller value is used; a key the caller leaves unbound
keeps its default; and `formatToParts` hands exactly this merged map to the
template. -/
theorem resolvedValues_override {V : Type} (m : IntlManager V)
    (vs : ValueBindings V) (k : String) :
    (∀ v, vs k = some v →
      resolvedValuesFor m.defaultRichTextElements (some vs) k = some v) ∧
    (vs k = none →
      resolvedValuesFor m.defaultRichTextElements (some vs) k =
        m.defaultRichTextElements k) ∧
    (∀ t : CompiledTemplate V,
      formatToParts m (IntlMessage.compiled t) (some vs) =
        coalesceParts
          (t.formatToParts m.intl
            (resolvedValuesFor m.defaultRichTextElements (some vs)))) := by
  refine ⟨fun v hv => ?_, fun hnone => ?_, fun t => rfl⟩
  · simp [resolvedValuesFor, hv, Option.orElse]
  · simp [resolvedValuesFor, hnone, Option.orElse]

/-- Witness for C3, the override-precedence example of the specification:
defaults `b ↦ 1` with caller bindings `i ↦ 2` give effective bindings where
`i` is the caller value and `b` keeps its default. -/
theorem resolvedValues_override_witness :
    resolvedValuesFor (mkIntlManager "en-US" defaultsB).defaultRichTextElements
        (some bindingsI) "i" = some 2 ∧
    resolvedValuesFor (mkIntlManager "en-US" defaultsB).defaultRichTextElements
        (some bindingsI) "b" =
      (mkIntlManager "en-US" defaultsB).defaultRichTextElements "b" :=
  ⟨(resolvedValues_override (mkIntlManager "en-US" defaultsB) bindingsI "i").1
      2 rfl,
    (resolvedValues_override (mkIntlManager "en-US" defaultsB) bindingsI
          "b").2.1 rfl⟩

/-- Helper: when every subscriber in the list returns normally, the
notification loop performs exactly one invocation per subscriber, in list
order, each with the new locale, and propagates no exception. -/
theorem emitLocaleChange_all_ok {E : Type} (beh : Nat → String → Except E Unit)
    (L : String) :
    ∀ subs : List Nat, (∀ c ∈ subs, beh c L = Except.ok ()) →
      emitLocaleChange beh subs L = (subs.map fun c => (c, L), none) := by
  intro subs h
  induction subs with
  | nil => rfl
  | cons c rest ih =>
    have hc : beh c L = Except.ok () := h c (by simp)
    have hrest := ih fun d hd => h d (by simp [hd])
    simp [emitLocaleChange, hc, hrest]

/-- Helper: counting one invocation pair in the notification list counts
the subscriber identity in the subscription list. -/
theorem count_map_pair (L : String) (c : Nat) :
    ∀ subs : List Nat,
      (subs.map fun d => (d, L)).count (c, L) = subs.count c := by
  intro subs
  induction subs with
  | nil => rfl
  | cons d rest ih =>
    by_cases hdc : d = c
    · subst hdc
      simp [List.count_cons, ih]
    · simp [List.count_cons, ih, hdc]

/-- C6: after `setLocale(L)` returns, `currentLocale` equals `L`, and when
every registered subscriber returns normally, the notification list is
exactly the registration-ordered subscription list paired with `L`, each
registered subscriber is invoked exactly once with `L`, and no exception
escapes. -/
theorem setLocale_spec {V E : Type} (beh : Nat → String → Except E Unit)
    (m : IntlManager V) (L : String)
    (hok : ∀ c ∈ m.localeSubscriptions, beh c L = Except.ok ())
    (hnd : m.localeSubscriptions.Nodup) :
    (setLocale beh m L).1.currentLocale = L ∧
    (setLocale beh m L).2.1 = (m.localeSubscriptions.map fun c => (c, L)) ∧
    (∀ c ∈ m.localeSubscriptions,
      (setLocale beh m L).2.1.count (c, L) = 1) ∧
    (setLocale beh m L).2.2 = none := by
  have hemit := emitLocaleChange_all_ok beh L m.localeSubscriptions hok
  refine ⟨rfl, ?_, ?_, ?_⟩
  · simp [setLocale, hemit]
  · intro c hc
    have : (setLocale beh m L).2.1.count (c, L) =
        m.localeSubscriptions.count c := by
      simp [setLocale, hemit, count_map_pair]
    rw [this]
    exact List.count_eq_one_of_mem hnd hc
  · simp [setLocale, hemit]

/-- Witness for C6 at a manager with subscribers `0` and `1`. -/
theorem setLocale_spec_witness :
    (setLocale behOkAll managerWithTwoSubs "fr").1.currentLocale = "fr" ∧
    (setLocale behOkAll managerWithTwoSubs "fr").2.1 =
      (managerWithTwoSubs.localeSubscriptions.map fun c => (c, "fr")) ∧
    (setLocale behOkAll managerWithTwoSubs "fr").2.1.count (1, "fr") = 1 ∧
    (setLocale behOkAll managerWithTwoSubs "fr").2.2 = none :=
  have h := setLocale_spec behOkAll managerWithTwoSubs "fr"
    (fun _ _ => rfl) (by decide)
  ⟨h.1, h.2.1, h.2.2.1 1 (by decide), h.2.2.2⟩

/-- Helper: a subscriber that throws stops the notification loop at itself:
the subscribers before it are invoked, it is invoked, nothing after it is
invoked, and its exception propagates. -/
theorem emitLocaleChange_stops {E : Type} (beh : Nat → String → Except E Unit)
    (L : String) (c : Nat) (e : E) (hc : beh c L = Except.error e) :
    ∀ pre post : List Nat, (∀ d ∈ pre, beh d L = Except.ok ()) →
      emitLocaleChange beh (pre ++ c :: post) L =
        ((pre.map fun d => (d, L)) ++ [(c, L)], some e) := by
  intro pre post hpre
  induction pre with
  | nil => simp [emitLocaleChange, hc]
  | cons d rest ih =>
    have hd : beh d L = Except.ok () := hpre d (by simp)
    have hrest := ih fun x hx => hpre x (by simp [hx])
    simp [emitLocaleChange, hd, hrest]

/-- C1 amended: during the synchronous notification run by `setLocale`, a
subscriber callback that throws stops the notification at itself: the
subscribers registered before it are notified, the subscribers registered
after it are not notified at all, and the exception propagates out of
`setLocale` (the loop has no error handling). -/
theorem setLocale_throwing_subscriber {V E : Type}
    (beh : Nat → String → Except E Unit) (m : IntlManager V)
    (pre post : List Nat) (c : Nat) (L : String) (e : E)
    (hsubs : m.localeSubscriptions = pre ++ c :: post)
    (hnd : m.localeSubscriptions.Nodup)
    (hpre : ∀ d ∈ pre, beh d L = Except.ok ())
    (hc : beh c L = Except.error e) :
    (setLocale beh m L).2.1 = (pre.map fun d => (d, L)) ++ [(c, L)] ∧
    (setLocale beh m L).2.2 = some e ∧
    ∀ d ∈ post, (d, L) ∉ (setLocale beh m L).2.1 := by
  have hemit := emitLocaleChange_stops beh L c e hc pre post hpre
  rw [hsubs] at hnd
  rw [List.nodup_append] at hnd
  refine ⟨?_, ?_, ?_⟩
  · simp [setLocale, hsubs, hemit]
  · simp [setLocale, hsubs, hemit]
  · intro d hd hmem
    simp only [setLocale, hsubs, hemit] at hmem
    rw [List.mem_append] at hmem
    rcases hmem with hmem | hmem
    · rw [List.mem_map] at hmem
      rcases hmem with ⟨d', hd', hdd⟩
      have : d' = d := (Prod.mk.injEq _ _ _ _).mp hdd |>.1
      subst this
      exact hnd.2.2 hd' (List.mem_cons_of_mem c hd)
    · rw [List.mem_singleton] at hmem
      have hdc : d = c := (Prod.mk.injEq _ _ _ _).mp hmem |>.1
      subst hdc
      exact (List.nodup_cons.mp hnd.2.1).1 hd

/-- Witness for C1 amended: subscriber `1` returns normally, subscriber `0`
throws, subscriber `2` is registered after it; the notification stops after
`0` and `2` is never invoked. -/
theorem setLocale_throwing_subscriber_witness :
    (setLocale behThrow0
        { managerWithTwoSubs with localeSubscriptions := [1, 0, 2] }
        "fr").2.1 = (([1] : List Nat).map fun d => (d, "fr")) ++ [(0, "fr")] ∧
    (setLocale behThrow0
        { managerWithTwoSubs with localeSubscriptions := [1, 0, 2] }
        "fr").2.2 = some () ∧
    ∀ d ∈ ([2] : List Nat), (d, "fr") ∉
      (setLocale behThrow0
        { managerWithTwoSubs with localeSubscriptions := [1, 0, 2] }
        "fr").2.1 :=
  setLocale_throwing_subscriber behThrow0
    { managerWithTwoSubs with localeSubscriptions := [1, 0, 2] }
    [1] [2] 0 "fr" () rfl (by decide)
    (fun d hd => by
      have hd1 := List.mem_singleton.mp hd
      subst hd1
      rfl)
    rfl

/-- Counterexample for C1 as stated: with subscribers `0` (throwing) and
`1` registered, `setLocale` notifies only `0`; the remaining registered
subscriber `1` is never notified and the exception escapes. -/
theorem setLocale_throw_counterexample :
    (setLocale behThrow0 managerWithTwoSubs "fr").2.1 = [(0, "fr")] ∧
    (1, "fr") ∉ (setLocale behThrow0 managerWithTwoSubs "fr").2.1 ∧
    (setLocale behThrow0 managerWithTwoSubs "fr").2.2 = some () :=
  ⟨rfl, by decide, rfl⟩

/-- Counterexample for C7 as stated: `setLocale` performs no validation, so
passing the empty string makes `currentLocale` empty. -/
theorem setLocale_empty_locale_counterexample :
    ((setLocale behOkAll managerWithTwoSubs "").1).currentLocale = "" ∧
    ((setLocale behOkAll managerWithTwoSubs "").1).currentLocale.length = 0 :=
  ⟨rfl, rfl⟩

/-- C7 amended: `currentLocale` equals the constructor default locale after
construction and the argument of the last `setLocale` afterwards; it is
therefore non-empty exactly as long as those inputs are non-empty, since no
validation is performed. -/
theorem currentLocale_nonempty_of_inputs {V E : Type} (d : String)
    (els : ValueBindings V) (beh : Nat → String → Except E Unit)
    (m : IntlManager V) (L : String) (hd : d ≠ "") (hL : L ≠ "") :
    (mkIntlManager d els).currentLocale ≠ "" ∧
    (setLocale beh m L).1.currentLocale ≠ "" :=
  ⟨hd, hL⟩

/-- Witness for C7 amended at the default locale and locale `fr`. -/
theorem currentLocale_nonempty_of_inputs_witness :
    (mkIntlManager "en-US" defaultsB).currentLocale ≠ "" ∧
    (setLocale behOkAll managerWithTwoSubs "fr").1.currentLocale ≠ "" :=
  currentLocale_nonempty_of_inputs "en-US" defaultsB behOkAll
    managerWithTwoSubs "fr" (by decide) (by decide)

/-- Helper: `appendLiteral` preserves which side of the sum an entry is
on. -/
theorem appendLiteral_isLeft {V : Type} (e : Sum String V) (s : String) :
    (appendLiteral e s).isLeft = e.isLeft := by
  cases e <;> rfl

/-- Helper: `concatLast` on a nonempty array keeps the leading entry and
recurses into the tail. -/
theorem concatLast_cons {V : Type} (a : Sum String V)
    (l : List (Sum String V)) (s : String) (h : l ≠ []) :
    concatLast (a :: l) s = a :: concatLast l s := by
  cases l with
  | nil => exact absurd rfl h
  | cons b t => rfl

/-- Helper: `concatLast` applies `appendLiteral` to the final entry. -/
theorem concatLast_concat {V : Type} (res : List (Sum String V))
    (e : Sum String V) (s : String) :
    concatLast (res ++ [e]) s = res ++ [appendLiteral e s] := by
  induction res with
  | nil => rfl
  | cons a t ih =>
    rw [List.cons_append, concatLast_cons a (t ++ [e]) s (by simp),
      ih, List.cons_append]

/-- Helper: `flattenEntries` distributes over append. -/
theorem flattenEntries_append {V : Type} (l₁ l₂ : List (Sum String V)) :
    flattenEntries (l₁ ++ l₂) = flattenEntries l₁ ++ flattenEntries l₂ := by
  induction l₁ with
  | nil => rfl
  | cons a t ih =>
    cases a with
    | inl s => simp [flattenEntries, ih]
    | inr v => simp [flattenEntries, ih]

/-- Helper: `notBothLiteral` only depends on the side of each entry. -/
theorem notBothLiteral_congr {V : Type} (a b b' : Sum String V)
    (h : b.isLeft = b'.isLeft) : notBothLiteral a b ↔ notBothLiteral a b' := by
  unfold notBothLiteral
  rw [h]

/-- Main loop invariant for the coalescing pass: starting from a result
array with no two adjacent literal entries whose last entry matches the
`inLiteral` flag, the loop keeps the no-adjacent-literals shape and emits
exactly the flattened content of the result so far followed by the
flattened content of the remaining parts. -/
theorem coalesceGo_invariant {V : Type} (parts : List (FormatPart V)) :
    ∀ (res : List (Sum String V)) (b : Bool),
      List.Chain' notBothLiteral res → lastMatches res b →
      List.Chain' notBothLiteral (coalesceGo parts res b) ∧
      flattenEntries (coalesceGo parts res b) =
        flattenEntries res ++ flattenParts parts := by
  induction parts with
  | nil =>
    intro res b hc _
    simp [coalesceGo, flattenParts]
    exact hc
  | cons part rest ih =>
    intro res b hc hl
    cases hcond : (b && part.isLiteral) with
    | true =>
      obtain ⟨hb, hlit⟩ : b = true ∧ part.isLiteral = true := by
        simpa using hcond
      cases part with
      | rich v => exact absurd hlit (by simp [FormatPart.isLiteral])
      | literal s =>
        subst hb
        unfold lastMatches at hl
        cases hlast : res.getLast? with
        | none =>
          rw [hlast] at hl
          exact absurd hl (by simp)
        | some e =>
          rw [hlast] at hl
          cases e with
          | inr v => exact absurd hl (by simp)
          | inl t =>
            obtain ⟨res', hres⟩ : ∃ res', res = res' ++ [Sum.inl t] :=
              ⟨res.dropLast, (List.dropLast_append_getLast? _ hlast).symm⟩
            subst hres
            have hcgo :
                coalesceGo (FormatPart.literal s :: rest)
                    (res' ++ [Sum.inl t]) true =
                  coalesceGo rest (res' ++ [Sum.inl (t ++ s)]) true := by
              show (if true && (FormatPart.literal s : FormatPart V).isLiteral
                  then coalesceGo rest
                    (concatLast (res' ++ [Sum.inl t])
                      (FormatPart.literal s : FormatPart V).literalText) true
                  else coalesceGo rest
                    ((res' ++ [Sum.inl t]) ++
                      [(FormatPart.literal s : FormatPart V).entry])
                    (FormatPart.literal s : FormatPart V).isLiteral) =
                coalesceGo rest (res' ++ [Sum.inl (t ++ s)]) true
              rw [if_pos (by simp [FormatPart.isLiteral])]
              rw [show (FormatPart.literal s : FormatPart V).literalText = s
                from rfl]
              rw [concatLast_concat]
              rfl
            rw [hcgo]
            have hchain' : List.Chain' notBothLiteral
                (res' ++ [Sum.inl (t ++ s)]) := by
              rw [List.chain'_append] at hc ⊢
              refine ⟨hc.1, List.chain'_singleton _, ?_⟩
              intro x hx y hy
              rw [List.head?_cons, Option.mem_some_iff] at hy
              subst hy
              have := hc.2.2 x hx (Sum.inl t) (by simp)
              simpa [notBothLiteral] using this
            have hlast' : lastMatches (res' ++ [Sum.inl (t ++ s)]) true := by
              unfold lastMatches
              rw [List.getLast?_concat]
              rfl
            have hmain := ih (res' ++ [Sum.inl (t ++ s)]) true hchain' hlast'
            refine ⟨hmain.1, ?_⟩
            rw [hmain.2]
            have hflat :
                flattenEntries (res' ++ [Sum.inl (t ++ s)]) =
                  flattenEntries (res' ++ [Sum.inl t]) ++
                    s.data.map Sum.inl := by
              rw [flattenEntries_append, flattenEntries_append]
              simp [flattenEntries, String.data_append]
            rw [hflat]
            show flattenEntries (res' ++ [Sum.inl t]) ++ s.data.map Sum.inl ++
                flattenParts rest =
              flattenEntries (res' ++ [Sum.inl t]) ++
                flattenParts (FormatPart.literal s :: rest)
            rw [List.append_assoc]
            rfl
    | false =>
      have hcgo :
          coalesceGo (part :: rest) res b =
            coalesceGo rest (res ++ [part.entry]) part.isLiteral := by
        show (if b && part.isLiteral
            then coalesceGo rest (concatLast res part.literalText) true
            else coalesceGo rest (res ++ [part.entry]) part.isLiteral) =
          coalesceGo rest (res ++ [part.entry]) part.isLiteral
        rw [hcond]
        rfl
      rw [hcgo]
      have hbound : ∀ x ∈ res.getLast?, ∀ y ∈ [part.entry].head?,
          notBothLiteral x y := by
        intro x hx y hy
        rw [List.head?_cons, Option.mem_some_iff] at hy
        subst hy
        cases part with
        | rich v =>
          intro hcontra
          exact absurd hcontra.2 (by simp [FormatPart.entry])
        | literal s =>
          have hb : b = false := by
            cases b with
            | false => rfl
            | true => simp [FormatPart.isLiteral] at hcond
          subst hb
          unfold lastMatches at hl
          rw [Option.mem_def] at hx
          rw [hx] at hl
          intro hcontra
          exact absurd hcontra.1 (by rw [← hl]; simp)
      have hchain' : List.Chain' notBothLiteral (res ++ [part.entry]) := by
        rw [List.chain'_append]
        exact ⟨hc, List.chain'_singleton _, hbound⟩
      have hlast' : lastMatches (res ++ [part.entry]) part.isLiteral := by
        unfold lastMatches
        rw [List.getLast?_concat]
        cases part <;> rfl
      have hmain := ih (res ++ [part.entry]) part.isLiteral hchain' hlast'
      refine ⟨hmain.1, ?_⟩
      rw [hmain.2, flattenEntries_append]
      cases part with
      | literal s =>
        simp [flattenEntries, flattenParts, FormatPart.entry,
          List.append_assoc]
      | rich v =>
        simp [flattenEntries, flattenParts, FormatPart.entry,
          List.append_assoc]

/-- Helper: the head entry of the result survives the rest of the loop
with its side unchanged (a merge only extends it with more literal
text). -/
theorem coalesceGo_head {V : Type} (parts : List (FormatPart V)) :
    ∀ (e : Sum String V) (res : List (Sum String V)) (b : Bool),
      (coalesceGo parts (e :: res) b).head?.map Sum.isLeft =
        some e.isLeft := by
  induction parts with
  | nil => intro e res b; rfl
  | cons part rest ih =>
    intro e res b
    cases hcond : (b && part.isLiteral) with
    | true =>
      have hcgo :
          coalesceGo (part :: rest) (e :: res) b =
            coalesceGo rest (concatLast (e :: res) part.literalText) true := by
        show (if b && part.isLiteral
            then coalesceGo rest (concatLast (e :: res) part.literalText) true
            else coalesceGo rest ((e :: res) ++ [part.entry]) part.isLiteral) =
          coalesceGo rest (concatLast (e :: res) part.literalText) true
        rw [hcond]
        rfl
      rw [hcgo]
      cases res with
      | nil =>
        show (coalesceGo rest [appendLiteral e part.literalText] true).head?.map
            Sum.isLeft = some e.isLeft
        rw [ih (appendLiteral e part.literalText) [] true,
          appendLiteral_isLeft]
      | cons r res' =>
        rw [concatLast_cons e (r :: res') part.literalText (by simp)]
        exact ih e (concatLast (r :: res') part.literalText) true
    | false =>
      have hcgo :
          coalesceGo (part :: rest) (e :: res) b =
            coalesceGo rest ((e :: res) ++ [part.entry]) part.isLiteral := by
        show (if b && part.isLiteral
            then coalesceGo rest (concatLast (e :: res) part.literalText) true
            else coalesceGo rest ((e :: res) ++ [part.entry]) part.isLiteral) =
          coalesceGo rest ((e :: res) ++ [part.entry]) part.isLiteral
        rw [hcond]
        rfl
      rw [hcgo, List.cons_append]
      exact ih e (res ++ [part.entry]) part.isLiteral

/-- C2: the coalescing step of `formatToParts` never leaves two adjacent
entries that both originated from literal parts; it reproduces the input
content exactly in order (so a literal run is never merged across a
non-literal part, which would have to move or drop content); and the first
output entry originates from the first input part, never merged backward
(for an empty input both sides are empty). -/
theorem coalesceParts_spec {V : Type} (parts : List (FormatPart V)) :
    List.Chain' notBothLiteral (coalesceParts parts) ∧
    flattenEntries (coalesceParts parts) = flattenParts parts ∧
    (coalesceParts parts).head?.map Sum.isLeft =
      parts.head?.map FormatPart.isLiteral := by
  have hinv := coalesceGo_invariant parts [] false
    (List.chain'_nil) (by unfold lastMatches; rfl)
  refine ⟨hinv.1, by simpa [flattenEntries] using hinv.2, ?_⟩
  cases parts with
  | nil => rfl
  | cons part rest =>
    have hcgo :
        coalesceParts (part :: rest) =
          coalesceGo rest [part.entry] part.isLiteral := by
      show (if false && part.isLiteral
          then coalesceGo rest (concatLast [] part.literalText) true
          else coalesceGo rest ([] ++ [part.entry]) part.isLiteral) =
        coalesceGo rest [part.entry] part.isLiteral
      rw [Bool.false_and, if_neg (by simp)]
      rfl
    rw [hcgo, coalesceGo_head rest part.entry [] part.isLiteral]
    cases part <;> rfl

/-- C4: for every candidate path, any failure raised inside the `try` block
of `processFile` (from `processDefinitionsFile` or `precompile`, whatever
the database does) is caught and logged inside `processFile`, which always
returns normally; consequently the surrounding scan loop processes every
file and never observes a propagated exception. -/
theorem processFile_never_throws {E : Type} (cwd : List Char)
    (isMessageDefinitionsFile : List Char → Bool)
    (database : IntlMessageDatabase E) (filePath : List Char)
    (files : List (List Char)) :
    (∃ o, processFile cwd isMessageDefinitionsFile database filePath =
      Except.ok o) ∧
    (∃ outs,
      initialScan cwd isMessageDefinitionsFile database files =
        Except.ok outs ∧
      outs.length = files.length) := by
  have hone : ∀ p : List Char, ∃ o,
      processFile cwd isMessageDefinitionsFile database p = Except.ok o := by
    intro p
    unfold processFile
    by_cases hdef : isMessageDefinitionsFile p = false
    · rw [if_pos hdef]
      exact ⟨ProcessOutcome.skipped, rfl⟩
    · rw [if_neg hdef]
      cases htry : processFileTry cwd database p with
      | ok out => exact ⟨ProcessOutcome.compiled out, rfl⟩
      | error e => exact ⟨ProcessOutcome.failedLogged e, rfl⟩
  refine ⟨hone filePath, ?_⟩
  induction files with
  | nil => exact ⟨[], rfl, rfl⟩
  | cons f rest ih =>
    obtain ⟨o, ho⟩ := hone f
    obtain ⟨outs, houts, hlen⟩ := ih
    refine ⟨o :: outs, ?_, by simp [hlen]⟩
    unfold initialScan at houts ⊢
    rw [List.mapM_cons, ho, houts]
    rfl

/-- Helper: a list prefix is no longer than the list. -/
theorem isPrefixOf_length_le :
    ∀ pat l : List Char, pat.isPrefixOf l = true → pat.length ≤ l.length
  | [], _, _ => by simp
  | a :: pat', [], h => by simp [List.isPrefixOf] at h
  | a :: pat', b :: l', h => by
    simp only [List.isPrefixOf, Bool.and_eq_true] at h
    have := isPrefixOf_length_le pat' l' h.2
    simpa using Nat.succ_le_succ this

/-- Helper: every list is a prefix of itself. -/
theorem isPrefixOf_self : ∀ l : List Char, l.isPrefixOf l = true
  | [] => rfl
  | a :: t => by simp [List.isPrefixOf, isPrefixOf_self t]

/-- Helper: a one-character pattern is a prefix exactly of the lists that
start with that character. -/
theorem singleton_isPrefixOf_iff (c : Char) (l : List Char) :
    ([c].isPrefixOf l = true) ↔ l.head? = some c := by
  cases l with
  | nil => simp [List.isPrefixOf]
  | cons a t =>
    show ((c == a && List.isPrefixOf [] t) = true) ↔
      (a :: t).head? = some c
    constructor
    · intro h
      have hca : (c == a) = true := by simpa using h
      rw [eq_of_beq hca]
      rfl
    · intro h
      have hac : a = c := by simpa using h
      subst hac
      simp [List.isPrefixOf]

/-- Helper: `lastIndexOfFrom` finds the pattern placed at the end of the
string, scanning down from any start position at or above it. -/
theorem lastIndexOfFrom_append_self (x pat : List Char) (hpat : pat ≠ []) :
    ∀ k : Nat,
      lastIndexOfFrom (x ++ pat) pat (x.length + k) = some x.length := by
  intro k
  induction k with
  | zero =>
    cases hx : x.length with
    | zero =>
      have hxnil : x = [] := List.length_eq_zero.mp hx
      subst hxnil
      have hpre : pat.isPrefixOf (([] : List Char) ++ pat) = true := by
        rw [List.nil_append]
        exact isPrefixOf_self pat
      show lastIndexOfFrom ([] ++ pat) pat 0 = some 0
      unfold lastIndexOfFrom
      rw [if_pos hpre]
    | succ n =>
      have hdrop : (x ++ pat).drop (n + 1) = pat := by
        rw [← hx]
        exact List.drop_left x pat
      have hpre : pat.isPrefixOf ((x ++ pat).drop (n + 1)) = true := by
        rw [hdrop]
        exact isPrefixOf_self pat
      rw [Nat.add_zero]
      unfold lastIndexOfFrom
      rw [if_pos hpre]
  | succ k ihk =>
    have hdrop : (x ++ pat).drop (x.length + k + 1) = pat.drop (k + 1) := by
      rw [List.drop_append_eq_append_drop]
      have h1 : x.drop (x.length + k + 1) = [] :=
        List.drop_eq_nil_of_le (by omega)
      have h2 : x.length + k + 1 - x.length = k + 1 := by omega
      rw [h1, h2, List.nil_append]
    have hpat1 : 1 ≤ pat.length := List.length_pos.mpr hpat
    have hnp : pat.isPrefixOf (pat.drop (k + 1)) = false := by
      cases h : pat.isPrefixOf (pat.drop (k + 1)) with
      | false => rfl
      | true =>
        have hle := isPrefixOf_length_le _ _ h
        rw [List.length_drop] at hle
        omega
    show lastIndexOfFrom (x ++ pat) pat (x.length + k + 1) = some x.length
    unfold lastIndexOfFrom
    rw [hdrop, hnp]
    simpa using ihk

/-- Helper: `lastIndexOf` on a string that ends with the (nonempty) pattern
returns exactly the position where that final occurrence starts. -/
theorem lastIndexOf_append_suffix (x pat : List Char) (hpat : pat ≠ []) :
    lastIndexOf (x ++ pat) pat = some x.length := by
  unfold lastIndexOf
  rw [List.length_append]
  exact lastIndexOfFrom_append_self x pat hpat pat.length

/-- Helper: a found index is at most the start position. -/
theorem lastIndexOfFrom_le (s pat : List Char) :
    ∀ n i, lastIndexOfFrom s pat n = some i → i ≤ n := by
  intro n
  induction n with
  | zero =>
    intro i h
    unfold lastIndexOfFrom at h
    by_cases hp : pat.isPrefixOf s = true
    · rw [if_pos hp] at h
      have h0 : (0 : Nat) = i := Option.some_inj.mp h
      omega
    · rw [if_neg hp] at h
      exact absurd h (by simp)
  | succ n ihn =>
    intro i h
    unfold lastIndexOfFrom at h
    by_cases hp : pat.isPrefixOf (s.drop (n + 1)) = true
    · rw [if_pos hp] at h
      have h1 : n + 1 = i := Option.some_inj.mp h
      omega
    · rw [if_neg hp] at h
      have := ihn i h
      omega

/-- Helper: a found index is an actual occurrence of the pattern. -/
theorem lastIndexOfFrom_occurrence (s pat : List Char) :
    ∀ n i, lastIndexOfFrom s pat n = some i →
      pat.isPrefixOf (s.drop i) = true := by
  intro n
  induction n with
  | zero =>
    intro i h
    unfold lastIndexOfFrom at h
    by_cases hp : pat.isPrefixOf s = true
    · rw [if_pos hp] at h
      have hi : (0 : Nat) = i := Option.some_inj.mp h
      rw [← hi, List.drop_zero]
      exact hp
    · rw [if_neg hp] at h
      exact absurd h (by simp)
  | succ n ihn =>
    intro i h
    unfold lastIndexOfFrom at h
    by_cases hp : pat.isPrefixOf (s.drop (n + 1)) = true
    · rw [if_pos hp] at h
      have hi : n + 1 = i := Option.some_inj.mp h
      rw [← hi]
      exact hp
    · rw [if_neg hp] at h
      exact ihn i h

/-- Helper: the index of a one-character occurrence is strictly inside the
string. -/
theorem lastIndexOf_singleton_lt (x : List Char) (c : Char) (i : Nat)
    (h : lastIndexOf x [c] = some i) : i < x.length := by
  have hle : i ≤ x.length := lastIndexOfFrom_le x [c] x.length i h
  have hocc := lastIndexOfFrom_occurrence x [c] x.length i h
  have h1 := isPrefixOf_length_le _ _ hocc
  rw [List.length_drop] at h1
  simp only [List.length_singleton] at h1
  omega

/-- Helper: scanning down through the slash-free suffix region finds
nothing, so the scan can start at the boundary instead. -/
theorem lastIndexOfFrom_slashFreeHigh (x s : List Char) (c : Char)
    (hs : c ∉ s) :
    ∀ k, lastIndexOfFrom (x ++ s) [c] (x.length + k) =
      lastIndexOfFrom (x ++ s) [c] x.length := by
  intro k
  induction k with
  | zero => rfl
  | succ k ihk =>
    have hdrop : (x ++ s).drop (x.length + k + 1) = s.drop (k + 1) := by
      rw [List.drop_append_eq_append_drop]
      have h1 : x.drop (x.length + k + 1) = [] :=
        List.drop_eq_nil_of_le (by omega)
      have h2 : x.length + k + 1 - x.length = k + 1 := by omega
      rw [h1, h2, List.nil_append]
    have hnp : ([c].isPrefixOf (s.drop (k + 1))) = false := by
      cases hmem : ([c].isPrefixOf (s.drop (k + 1))) with
      | false => rfl
      | true =>
        have hhead := (singleton_isPrefixOf_iff c _).mp hmem
        have hcmem : c ∈ s.drop (k + 1) := by
          cases hd : s.drop (k + 1) with
          | nil => rw [hd] at hhead; exact absurd hhead (by simp)
          | cons a t =>
            rw [hd] at hhead
            have hac : a = c := by simpa using hhead
            rw [hac]
            exact List.mem_cons_self c t
        exact absurd (List.drop_subset (k + 1) s hcmem) hs
    show lastIndexOfFrom (x ++ s) [c] (x.length + k + 1) =
      lastIndexOfFrom (x ++ s) [c] x.length
    rw [lastIndexOfFrom, hdrop, hnp]
    simpa using ihk

/-- Helper: below the boundary, the slash-free suffix is invisible to the
scan. -/
theorem lastIndexOfFrom_slashFreeLow (x s : List Char) (c : Char)
    (hs : c ∉ s) :
    ∀ n, n ≤ x.length →
      lastIndexOfFrom (x ++ s) [c] n = lastIndexOfFrom x [c] n := by
  have hnotPre : ∀ t : List Char, t = [] →
      ([c].isPrefixOf (t ++ s)) = ([c].isPrefixOf t) := by
    intro t ht
    subst ht
    rw [List.nil_append]
    cases hmem : ([c].isPrefixOf s) with
    | false => rfl
    | true =>
      have hhead := (singleton_isPrefixOf_iff c _).mp hmem
      have hcmem : c ∈ s := by
        cases s with
        | nil => exact absurd hhead (by simp)
        | cons a t' =>
          have : a = c := by simpa using hhead
          rw [this] at hhead ⊢
          exact List.mem_cons_self c t'
      exact absurd hcmem hs
  have hcong : ∀ t : List Char,
      ([c].isPrefixOf (t ++ s)) = ([c].isPrefixOf t) := by
    intro t
    cases t with
    | nil => exact hnotPre [] rfl
    | cons a t' => simp [List.isPrefixOf]
  intro n
  induction n with
  | zero =>
    intro _
    unfold lastIndexOfFrom
    rw [hcong x]
  | succ n ihn =>
    intro hle
    have hdrop : (x ++ s).drop (n + 1) = x.drop (n + 1) ++ s := by
      rw [List.drop_append_eq_append_drop]
      have h2 : n + 1 - x.length = 0 := by omega
      rw [h2, List.drop_zero]
    show lastIndexOfFrom (x ++ s) [c] (n + 1) = lastIndexOfFrom x [c] (n + 1)
    rw [lastIndexOfFrom, lastIndexOfFrom, hdrop, hcong (x.drop (n + 1))]
    rw [ihn (by omega)]

/-- Helper: appending a slash-free suffix does not change where the last
slash is. -/
theorem lastIndexOf_append_slashFree (x s : List Char) (c : Char)
    (hs : c ∉ s) : lastIndexOf (x ++ s) [c] = lastIndexOf x [c] := by
  unfold lastIndexOf
  rw [List.length_append]
  rw [lastIndexOfFrom_slashFreeHigh x s c hs s.length]
  exact lastIndexOfFrom_slashFreeLow x s c hs x.length (Nat.le_refl _)

/-- Helper: the directory of a path obtained by appending a slash-free
file-name piece to `x` is determined by `x` alone. -/
theorem dirname_append_slashFree (x s : List Char) (hs : '/' ∉ s) :
    dirname (x ++ s) =
      match lastIndexOf x ['/'] with
      | none => ['.']
      | some 0 => ['/']
      | some i => x.take i := by
  unfold dirname
  rw [lastIndexOf_append_slashFree x s '/' hs]
  cases h : lastIndexOf x ['/'] with
  | none => rfl
  | some i =>
    cases i with
    | zero => rfl
    | succ i' =>
      have hlt : i' + 1 < x.length := lastIndexOf_singleton_lt x '/' _ h
      show (x ++ s).take (i' + 1) = x.take (i' + 1)
      rw [List.take_append_eq_append_take]
      have h2 : i' + 1 - x.length = 0 := by omega
      rw [h2, List.take_zero, List.append_nil]

/-- C5 amended: for every absolute definition-file path ending in
`.messages.js`, the output path computed by `processFile` is that path with
the definition suffix replaced by `.compiled.messages.jsona`, in the same
directory as the source file, independent of the working directory. For a
relative candidate path this fails: the result depends on the working
directory and lands in a doubled subdirectory (see the counterexample). -/
theorem processFileOutputPath_absolute (cwd x : List Char)
    (habs : isAbsolute (x ++ defSuffixChars) = true) :
    processFileOutputPath cwd (x ++ defSuffixChars) =
      x ++ compiledSuffixChars ∧
    dirname (x ++ compiledSuffixChars) = dirname (x ++ defSuffixChars) := by
  obtain ⟨x', hxx⟩ : ∃ x', x = '/' :: x' := by
    cases x with
    | nil => exact absurd habs (by decide)
    | cons a x' =>
      have ha : (a == '/') = true := by simpa [isAbsolute] using habs
      exact ⟨x', by rw [eq_of_beq ha]⟩
  have hli : lastIndexOf (x ++ defSuffixChars) defSuffixChars =
      some x.length :=
    lastIndexOf_append_suffix x defSuffixChars (by decide)
  have hbase : fileBasename (x ++ defSuffixChars) = x := by
    unfold fileBasename
    rw [hli]
    exact List.take_left x defSuffixChars
  have habs2 : isAbsolute (x ++ compiledSuffixChars) = true := by
    subst hxx
    simp [isAbsolute]
  constructor
  · unfold processFileOutputPath resolvePaths
    rw [hbase, if_pos habs2]
  · rw [dirname_append_slashFree x compiledSuffixChars (by decide),
      dirname_append_slashFree x defSuffixChars (by decide)]

/-- Witness for C5 amended at the absolute path `/c/sub/a.messages.js` with
working directory `/w`. -/
theorem processFileOutputPath_absolute_witness :
    processFileOutputPath "/w".data ("/c/sub/a".data ++ defSuffixChars) =
      "/c/sub/a".data ++ compiledSuffixChars ∧
    dirname ("/c/sub/a".data ++ compiledSuffixChars) =
      dirname ("/c/sub/a".data ++ defSuffixChars) :=
  processFileOutputPath_absolute "/w".data "/c/sub/a".data (by decide)

/-- Counterexample for C5 as stated: for the relative candidate path
`sub/a.messages.js` with working directory `/c`, the computed output path
is `/c/sub/sub/a.compiled.messages.jsona` — it depends on the working
directory (so it is not a pure function of the path), it is not the path
with the suffix replaced, and it is not in the directory of the source
file `/c/sub/a.messages.js`. -/
theorem processFileOutputPath_relative_counterexample :
    processFileOutputPath "/c".data "sub/a.messages.js".data =
      "/c/sub/sub/a.compiled.messages.jsona".data ∧
    processFileOutputPath "/c".data "sub/a.messages.js".data ≠
      processFileOutputPath "/d".data "sub/a.messages.js".data ∧
    dirname (processFileOutputPath "/c".data "sub/a.messages.js".data) ≠
      dirname ("/c/sub/a.messages.js".data) ∧
    processFileOutputPath "/c".data "sub/a.messages.js".data ≠
      "sub/a.compiled.messages.jsona".data :=
  ⟨by decide, by decide, by decide, by decide⟩

end IntlManagerModel
